import Mathlib

/-!
Verification of the Mersenne-31 Poseidon2 diffusion layer
(`src/mersenne-31/src/poseidon2.rs`).

States are modelled as `List Nat`, each entry a canonical Mersenne-31
field element, i.e. an integer in `[0, p)` with `p = 2^31 - 1`.
Machine `u64` arithmetic is modelled on `Nat` with explicit `% 2^64`
(Rust release-mode wrapping semantics); the left-shift operator masks
its shift amount modulo 64 as the hardware does.
-/

/-- The Mersenne prime `p = 2^31 - 1` defining the field. -/
def p31 : Nat := 2^31 - 1

/-- Modulus of the 64-bit unsigned machine integers used for delayed reduction. -/
def u64Mod : Nat := 2^64

/-- Wrapping `u64` addition. -/
def u64Add (a b : Nat) : Nat := (a + b) % u64Mod

/-- Wrapping `u64` left shift; the shift amount is masked modulo 64. -/
def u64Shl (x s : Nat) : Nat := (x * 2 ^ (s % 64)) % u64Mod

/-- Modelled from the spec: the base-field negation (an external collaborator,
`-state[0]` in `permute_mut`): "Negation of 0 is 0; all other values map to
p − value" (spec §3), for canonical inputs. -/
def m31Neg (x : Nat) : Nat := if x = 0 then 0 else p31 - x

/-- Modelled from the spec: the field reduction primitive `from_u62` (an
external collaborator): "given a non-negative integer known to fit in 62 bits,
returns its unique canonical representative in [0, p)" (spec §2.1). The model
extends it to all of `Nat` by exact reduction; only inputs below `2^62` are
covered by the spec. -/
def from_u62 (x : Nat) : Nat := x % p31

/-- Modelled from the spec: base-field addition modulo `p` (spec §3). -/
def m31Add (x y : Nat) : Nat := (x + y) % p31

/-- Modelled from the spec: base-field subtraction, addition of the negation. -/
def m31Sub (x y : Nat) : Nat := m31Add x (m31Neg y)

/-- Modelled from the spec: ring doubling, used by the generic layer. -/
def m31Double (x : Nat) : Nat := (x + x) % p31

/-- Modelled from the spec: the ring primitive "multiply by a power of two"
(`mul_2exp_u64`), i.e. multiplication by `2^k` modulo `p`. -/
def m31Mul2exp (x k : Nat) : Nat := (x * 2 ^ k) % p31

/-- Modelled from the spec: summation of ring elements (`Iterator::sum`),
a left fold of ring addition starting from zero. -/
def m31Sum (l : List Nat) : Nat := l.foldl m31Add 0

/-- Shift table defining the width-16 diagonal
(`POSEIDON2_INTERNAL_MATRIX_DIAG_16_SHIFTS` in the source). -/
def POSEIDON2_INTERNAL_MATRIX_DIAG_16_SHIFTS : List Nat :=
  [0, 1, 2, 3, 4, 5, 6, 7, 8, 10, 12, 13, 14, 15, 16]

/-- Shift table defining the width-24 diagonal
(`POSEIDON2_INTERNAL_MATRIX_DIAG_24_SHIFTS` in the source). -/
def POSEIDON2_INTERNAL_MATRIX_DIAG_24_SHIFTS : List Nat :=
  [0, 1, 2, 3, 4, 5, 6, 7, 8, 9, 10, 11, 12, 13, 14, 15, 16, 17, 18, 19, 20, 21, 22]

/-- The `u64` accumulation `state[1..].iter().map(|x| x.value as u64).sum()`
in `permute_mut`, with wrapping addition. -/
def partSumU64 (l : List Nat) : Nat := l.foldl u64Add 0

/-- Embedding of `permute_mut` from the source: multiply the state by
`I + Diag([-2] ++ (1 << shifts))` using delayed reduction.
`part_sum` sums `state[1..]` in a `u64`; `full_sum` adds `state[0]`;
the new `state[0]` is `from_u62(part_sum + (-state[0]).value)` and the new
`state[i]` is `from_u62(full_sum + (state[i] << shifts[i-1]))`.
The in-place loop reads only original values, so it is a `zipWith`. -/
def permute_mut (state : List Nat) (shifts : List Nat) : List Nat :=
  match state with
  | [] => []
  | s0 :: rest =>
    let part_sum := partSumU64 rest
    let full_sum := u64Add part_sum s0
    let s0v := u64Add part_sum (m31Neg s0)
    from_u62 s0v ::
      List.zipWith (fun x sh => from_u62 (u64Add full_sum (u64Shl x sh))) rest shifts

/-- Embedding of `permute_mut` together with its `debug_assert_eq!` guard:
in a debug build a width/table-length mismatch aborts (modelled as `none`)
instead of returning a state. -/
def permute_mut_checked (state : List Nat) (shifts : List Nat) : Option (List Nat) :=
  if state.length = shifts.length + 1 then some (permute_mut state shifts) else none

/-- Embedding of `GenericPoseidon2LinearLayersMersenne31::internal_linear_layer`
instantiated at `R = Mersenne31`, parametrized by the width's shift table:
`part_sum` is the ring sum of `state[1..]`; the first three outputs are the
custom `part_sum - state[0]`, `full_sum + state[1]`, `full_sum + state[2].double()`;
the remaining outputs zip `state[3..]` with the shift table minus its first
two entries (`zip(SHIFTS).skip(2)`) using `mul_2exp_u64`. -/
def internal_linear_layer (shifts : List Nat) (state : List Nat) : List Nat :=
  match state, shifts with
  | s0 :: s1 :: s2 :: rest, _sh0 :: _sh1 :: shiftsRest =>
    let part_sum := m31Sum (s1 :: s2 :: rest)
    let full_sum := m31Add part_sum s0
    m31Sub part_sum s0 :: m31Add full_sum s1 :: m31Add full_sum (m31Double s2) ::
      List.zipWith (fun x sh => m31Add full_sum (m31Mul2exp x sh)) rest shiftsRest
  | _, _ => state

/-- The matrix-vector product `(I + diag(V)) * state mod p` with
`V = [-2, 2^shifts[0], 2^shifts[1], ...]`, written from the specification's
words: `new state[0] = (sum of all elements) - 2*state[0] mod p` and
`new state[i] = (sum of all elements) + 2^shifts[i-1] * state[i] mod p`.
This is the spec-side definition used to compare `permute_mut` against. -/
def diffusionSpec (state : List Nat) (shifts : List Nat) : List Nat :=
  match state with
  | [] => []
  | s0 :: rest =>
    let S : Int := ((s0 + rest.sum : Nat) : Int)
    ((S - 2 * (s0 : Int)) % (p31 : Int)).toNat ::
      List.zipWith (fun x sh => ((S + 2 ^ sh * (x : Int)) % (p31 : Int)).toNat) rest shifts

/-- Degree of the S-box permutation polynomial (`MERSENNE31_S_BOX_DEGREE`). -/
def MERSENNE31_S_BOX_DEGREE : Nat := 5

/-- Modelled from the spec: the nonlinear substitution, the fifth-power map
on the field (the exponent `MERSENNE31_S_BOX_DEGREE` is from the source). -/
def sbox (x : Nat) : Nat := x ^ MERSENNE31_S_BOX_DEGREE % p31

/-- Modelled from the spec: one internal round (`internal_permute_state` of
`p3_poseidon2` is not part of this repository): "apply one scalar round
constant to element 0 only, apply the nonlinear substitution (fifth-power map)
to element 0 only, then apply" the diffusion transform (spec §4.3). -/
def internalRound (shifts : List Nat) (state : List Nat) (c : Nat) : List Nat :=
  match state with
  | [] => []
  | s0 :: rest => permute_mut (sbox (m31Add s0 c) :: rest) shifts

/-- Modelled from the spec: the internal layer driver repeats the round triple
"once per entry in the internal round-constant table" (spec §4.3). -/
def internal_permute_state (shifts : List Nat) (consts : List Nat)
    (state : List Nat) : List Nat :=
  consts.foldl (internalRound shifts) state

/-- Internal round constants for width 16 (`MERSENNE31_RC16_INTERNAL`). -/
def MERSENNE31_RC16_INTERNAL : List Nat :=
  [0x7f7ec4bf, 0x0421926f, 0x5198e669, 0x34db3148, 0x4368bafd, 0x66685c7f,
   0x78d3249a, 0x60187881, 0x76dad67a, 0x0690b437, 0x1ea95311, 0x40e5369a,
   0x38f103fc]

/-- Internal round constants for width 24 (`MERSENNE31_RC24_INTERNAL`). -/
def MERSENNE31_RC24_INTERNAL : List Nat :=
  [0x22776a11, 0x5fa34268, 0x1415528d, 0x563fbd14, 0x34f45244, 0x120ea1b6,
   0x261368a5, 0x27665ec1, 0x36be2805, 0x345c4784, 0x17efdcc1, 0x393e6530,
   0x6da0b4b8, 0x31e5ded3, 0x675b27ac, 0x0ae88c30, 0x577841cc, 0x5fe06dec,
   0x56b0691a, 0x7242de1f, 0x3c377529]

instance p31_neZero : NeZero p31 := ⟨by norm_num [p31]⟩

instance p31_fact_prime : Fact (Nat.Prime p31) :=
  ⟨by
    have h : (mersenne 31).Prime := lucas_lehmer_sufficiency 31 (by norm_num) (by norm_num)
    simpa [mersenne, p31] using h⟩

lemma p31_pos : 0 < p31 := by norm_num [p31]

lemma sum_le_mul_of_forall_le (B : Nat) :
    ∀ l : List Nat, (∀ x ∈ l, x ≤ B) → l.sum ≤ l.length * B := by
  intro l
  induction l with
  | nil => simp
  | cons x t ih =>
    intro h
    simp only [List.sum_cons, List.length_cons]
    have hx : x ≤ B := h x (List.mem_cons_self x t)
    have ht := ih (fun y hy => h y (List.mem_cons_of_mem x hy))
    calc x + t.sum ≤ B + t.length * B := Nat.add_le_add hx ht
    _ = (t.length + 1) * B := by ring

lemma foldl_u64Add_eq : ∀ (l : List Nat) (a : Nat), a + l.sum < u64Mod →
    l.foldl u64Add a = a + l.sum := by
  intro l
  induction l with
  | nil => intro a _; simp
  | cons x t ih =>
    intro a h
    simp only [List.sum_cons] at h
    have hax : a + x < u64Mod := by omega
    simp only [List.foldl_cons]
    have h1 : u64Add a x = a + x := by
      simp only [u64Add]; exact Nat.mod_eq_of_lt hax
    rw [h1, ih (a + x) (by omega), List.sum_cons]
    ring

lemma partSumU64_eq_sum (l : List Nat) (h : l.sum < u64Mod) : partSumU64 l = l.sum := by
  simpa using foldl_u64Add_eq l 0 (by simpa using h)

lemma foldl_m31Add_eq : ∀ (l : List Nat) (a : Nat), a < p31 →
    l.foldl m31Add a = (a + l.sum) % p31 := by
  intro l
  induction l with
  | nil => intro a h; simp [Nat.mod_eq_of_lt h]
  | cons x t ih =>
    intro a h
    simp only [List.foldl_cons, List.sum_cons]
    rw [ih (m31Add a x) (Nat.mod_lt _ p31_pos)]
    simp only [m31Add]
    rw [Nat.mod_add_mod]
    ring_nf

lemma m31Sum_eq (l : List Nat) : m31Sum l = l.sum % p31 := by
  simpa using foldl_m31Add_eq l 0 p31_pos

lemma natCast_emod_toNat (a b : Nat) : (((a : Int) % (b : Int)).toNat) = a % b := by
  rw [← Int.natCast_mod]
  exact Int.toNat_natCast _

lemma zipWith_congr_mem (f g : Nat → Nat → Nat) :
    ∀ (l1 l2 : List Nat), (∀ x ∈ l1, ∀ y ∈ l2, f x y = g x y) →
      List.zipWith f l1 l2 = List.zipWith g l1 l2 := by
  intro l1
  induction l1 with
  | nil => intro l2 _; rfl
  | cons x t ih =>
    intro l2 h
    cases l2 with
    | nil => rfl
    | cons y u =>
      simp only [List.zipWith_cons_cons]
      congr 1
      · exact h x (List.mem_cons_self x t) y (List.mem_cons_self y u)
      · exact ih u (fun a ha b hb =>
          h a (List.mem_cons_of_mem x ha) b (List.mem_cons_of_mem y hb))

lemma m31Neg_lt (s0 : Nat) : m31Neg s0 < 2 ^ 31 := by
  unfold m31Neg p31
  split <;> omega

lemma permute_mut_cons (s0 : Nat) (rest shifts : List Nat)
    (hs0 : s0 < 2 ^ 31) (hrest : ∀ x ∈ rest, x < 2 ^ 31)
    (hN : rest.length ≤ 23) (hsh : ∀ s ∈ shifts, s ≤ 22) :
    permute_mut (s0 :: rest) shifts =
      ((rest.sum + m31Neg s0) % p31) ::
        List.zipWith (fun x sh => (s0 + rest.sum + x * 2 ^ sh) % p31) rest shifts := by
  have hsum : rest.sum ≤ 23 * (2 ^ 31 - 1) := by
    calc rest.sum ≤ rest.length * (2 ^ 31 - 1) :=
      sum_le_mul_of_forall_le _ rest (fun x hx => by have := hrest x hx; omega)
    _ ≤ 23 * (2 ^ 31 - 1) := Nat.mul_le_mul_right _ hN
  have hps : partSumU64 rest = rest.sum :=
    partSumU64_eq_sum rest (by unfold u64Mod; omega)
  simp only [permute_mut, hps]
  congr 1
  · have h1 : u64Add rest.sum (m31Neg s0) = rest.sum + m31Neg s0 := by
      have := m31Neg_lt s0
      simp only [u64Add, u64Mod]
      apply Nat.mod_eq_of_lt; omega
    simp [h1, from_u62]
  · have hfull : u64Add rest.sum s0 = rest.sum + s0 := by
      simp only [u64Add, u64Mod]
      apply Nat.mod_eq_of_lt; omega
    rw [hfull]
    apply zipWith_congr_mem
    intro x hx sh hsh2
    have hxlt : x < 2 ^ 31 := hrest x hx
    have hshle : sh ≤ 22 := hsh sh hsh2
    have hshl : u64Shl x sh = x * 2 ^ sh := by
      simp only [u64Shl, u64Mod]
      rw [Nat.mod_eq_of_lt (by omega : sh < 64)]
      apply Nat.mod_eq_of_lt
      have h2 : (2 : Nat) ^ sh ≤ 2 ^ 22 := Nat.pow_le_pow_right (by norm_num) hshle
      have h3 : x * 2 ^ sh ≤ 2 ^ 31 * 2 ^ 22 := Nat.mul_le_mul (le_of_lt hxlt) h2
      norm_num at h3 ⊢
      omega
    rw [hshl]
    have h2 : (2 : Nat) ^ sh ≤ 2 ^ 22 := Nat.pow_le_pow_right (by norm_num) hshle
    have h3 : x * 2 ^ sh ≤ 2 ^ 31 * 2 ^ 22 := Nat.mul_le_mul (le_of_lt hxlt) h2
    have hadd : u64Add (rest.sum + s0) (x * 2 ^ sh) = rest.sum + s0 + x * 2 ^ sh := by
      simp only [u64Add, u64Mod]
      apply Nat.mod_eq_of_lt
      norm_num at h3 ⊢
      omega
    rw [hadd]
    simp only [from_u62]
    ring_nf

lemma toNat_emod_eq (a : Nat) (z : Int) (hz : z = (a : Int)) :
    (z % (p31 : Int)).toNat = a % p31 := by
  rw [hz]; exact natCast_emod_toNat a p31

lemma toNat_emod_eq_of_emod (a : Nat) (z : Int)
    (hz : z % (p31 : Int) = ((a : Int)) % (p31 : Int)) :
    (z % (p31 : Int)).toNat = a % p31 := by
  rw [hz]; exact natCast_emod_toNat a p31

lemma head_eq_diffusion (s0 R : Nat) (hs0 : s0 < p31) :
    (R + m31Neg s0) % p31 =
      ((((s0 + R : Nat) : Int) - 2 * (s0 : Int)) % (p31 : Int)).toNat := by
  symm
  apply toNat_emod_eq_of_emod
  unfold m31Neg
  split
  · rename_i h0
    subst h0
    push_cast
    ring_nf
  · rw [Nat.cast_add (R := Int) R (p31 - s0), Nat.cast_sub (le_of_lt hs0)]
    push_cast
    unfold p31 at *
    omega

lemma internal_linear_layer_eq (s0 s1 s2 : Nat) (rest shRest : List Nat)
    (hs : ∀ x ∈ s0 :: s1 :: s2 :: rest, x < 2 ^ 31)
    (hN : rest.length ≤ 21) (hsh : ∀ s ∈ shRest, s ≤ 22) :
    internal_linear_layer (0 :: 1 :: shRest) (s0 :: s1 :: s2 :: rest) =
      permute_mut (s0 :: s1 :: s2 :: rest) (0 :: 1 :: shRest) := by
  have hs0 : s0 < 2 ^ 31 := hs s0 (by simp)
  have hrest : ∀ x ∈ s1 :: s2 :: rest, x < 2 ^ 31 := fun x hxm =>
    hs x (List.mem_cons_of_mem s0 hxm)
  have hsh' : ∀ s ∈ (0 :: 1 :: shRest), s ≤ 22 := by
    intro s hsm
    simp only [List.mem_cons] at hsm
    rcases hsm with rfl | rfl | hsm
    · omega
    · omega
    · exact hsh s hsm
  rw [permute_mut_cons s0 (s1 :: s2 :: rest) (0 :: 1 :: shRest) hs0 hrest
    (by simp; omega) hsh']
  simp only [internal_linear_layer, List.zipWith_cons_cons, List.sum_cons]
  rw [m31Sum_eq]
  simp only [List.sum_cons]
  unfold m31Sub m31Add m31Double m31Mul2exp
  congr 1
  · simp [Nat.mod_add_mod]
  congr 1
  · simp only [Nat.mod_add_mod, Nat.add_mod_mod]
    congr 1
    ring
  congr 1
  · simp only [Nat.mod_add_mod, Nat.add_mod_mod]
    congr 1
    ring
  apply zipWith_congr_mem
  intro x _ sh _
  simp only [Nat.mod_add_mod, Nat.add_mod_mod]
  congr 1
  ring

lemma nat_eq_of_zmod_eq (u v : Nat) (hu : u < p31) (hv : v < p31)
    (h : (u : ZMod p31) = (v : ZMod p31)) : u = v := by
  have h2 := congrArg ZMod.val h
  rwa [ZMod.val_natCast_of_lt hu, ZMod.val_natCast_of_lt hv] at h2

lemma m31Neg_cast (u : Nat) (hu : u ≤ p31) :
    ((m31Neg u : Nat) : ZMod p31) = -(u : ZMod p31) := by
  unfold m31Neg
  split
  · rename_i h0
    subst h0
    simp
  · rw [Nat.cast_sub hu, ZMod.natCast_self]
    ring

lemma combo_sum_cast (a b : Nat) : ∀ (xr yr : List Nat), xr.length = yr.length →
    (((List.zipWith (fun u v => (a * u + b * v) % p31) xr yr).sum : Nat) : ZMod p31)
      = (a : ZMod p31) * ((xr.sum : Nat) : ZMod p31)
        + (b : ZMod p31) * ((yr.sum : Nat) : ZMod p31) := by
  intro xr
  induction xr with
  | nil =>
    intro yr h
    cases yr with
    | nil => simp
    | cons y yt => simp at h
  | cons x xt ih =>
    intro yr h
    cases yr with
    | nil => simp at h
    | cons y yt =>
      simp only [List.zipWith_cons_cons, List.sum_cons, Nat.cast_add]
      rw [ih yt (by simp at h; omega), ZMod.natCast_mod]
      push_cast
      ring

lemma linear_elem (a b S T U x y sh : Nat)
    (hS : (S : ZMod p31) = (a : ZMod p31) * (T : ZMod p31) + (b : ZMod p31) * (U : ZMod p31)) :
    (S + ((a * x + b * y) % p31) * 2 ^ sh) % p31 =
      (a * ((T + x * 2 ^ sh) % p31) + b * ((U + y * 2 ^ sh) % p31)) % p31 := by
  apply nat_eq_of_zmod_eq _ _ (Nat.mod_lt _ p31_pos) (Nat.mod_lt _ p31_pos)
  rw [ZMod.natCast_mod, ZMod.natCast_mod]
  push_cast [ZMod.natCast_mod]
  rw [hS]
  ring

lemma linear_tail (a b S T U : Nat)
    (hS : (S : ZMod p31) = (a : ZMod p31) * (T : ZMod p31) + (b : ZMod p31) * (U : ZMod p31)) :
    ∀ (xr yr shifts : List Nat), xr.length = yr.length →
      List.zipWith (fun z sh => (S + z * 2 ^ sh) % p31)
          (List.zipWith (fun u v => (a * u + b * v) % p31) xr yr) shifts
        = List.zipWith (fun u v => (a * u + b * v) % p31)
            (List.zipWith (fun u sh => (T + u * 2 ^ sh) % p31) xr shifts)
            (List.zipWith (fun v sh => (U + v * 2 ^ sh) % p31) yr shifts) := by
  intro xr
  induction xr with
  | nil =>
    intro yr shifts h
    cases yr with
    | nil => simp
    | cons y yt => simp at h
  | cons x xt ih =>
    intro yr shifts h
    cases yr with
    | nil => simp at h
    | cons y yt =>
      cases shifts with
      | nil => simp
      | cons sh sht =>
        simp only [List.zipWith_cons_cons]
        congr 1
        · exact linear_elem a b S T U x y sh hS
        · exact ih yt sht (by simp at h; omega)

lemma linear_head (a b x0 y0 Rx Ry Rc : Nat)
    (hx0 : x0 < p31) (hy0 : y0 < p31)
    (hRc : (Rc : ZMod p31)
      = (a : ZMod p31) * (Rx : ZMod p31) + (b : ZMod p31) * (Ry : ZMod p31)) :
    (Rc + m31Neg ((a * x0 + b * y0) % p31)) % p31 =
      (a * ((Rx + m31Neg x0) % p31) + b * ((Ry + m31Neg y0) % p31)) % p31 := by
  apply nat_eq_of_zmod_eq _ _ (Nat.mod_lt _ p31_pos) (Nat.mod_lt _ p31_pos)
  simp only [Nat.cast_mul, ZMod.natCast_mod, Nat.cast_add]
  rw [m31Neg_cast _ (le_of_lt (Nat.mod_lt _ p31_pos)),
    m31Neg_cast x0 (le_of_lt hx0), m31Neg_cast y0 (le_of_lt hy0)]
  simp only [ZMod.natCast_mod]
  rw [hRc]
  push_cast
  ring

lemma zipWith_mod_lt (f : Nat → Nat → Nat) :
    ∀ (l1 l2 : List Nat), ∀ z ∈ List.zipWith (fun u v => f u v % p31) l1 l2, z < p31 := by
  intro l1
  induction l1 with
  | nil => intro l2 z hz; simp at hz
  | cons u t ih =>
    intro l2 z hz
    cases l2 with
    | nil => simp at hz
    | cons v w =>
      simp only [List.zipWith_cons_cons, List.mem_cons] at hz
      rcases hz with rfl | hz
      · exact Nat.mod_lt _ p31_pos
      · exact ih w z hz

/-- C1 (counterexample): the claim fails for an arbitrary shift table. At the
canonical state `[0, 2]` with `shifts = [63]` (so `N = length(shifts) + 1`),
`permute_mut` computes `[2, 2]` because the `u64` shift `2 << 63` wraps to 0,
while the matrix-vector product `(I + diag([-2, 2^63])) * state mod p`
is `[2, 6]`. -/
theorem permute_mut_large_shift_counterexample :
    permute_mut [0, 2] [63] = [2, 2] ∧ diffusionSpec [0, 2] [63] = [2, 6] ∧
    permute_mut [0, 2] [63] ≠ diffusionSpec [0, 2] [63] := by decide

/-- C1 (amended): for every `N ≤ 24` with `N = length(shifts) + 1`, every
shift table with entries at most 22 (as in the two bundled tables), and every
state of `N` canonical Mersenne-31 field elements, `permute_mut` replaces the
state with the matrix-vector product `(I + diag(V)) * state` reduced modulo
`p = 2^31 - 1`, where `V = [-2, 2^shifts[0], 2^shifts[1], ...]`: the new
`state[0]` is `(sum of all elements) - 2*state[0] mod p` and the new `state[i]`
is `(sum of all elements) + 2^shifts[i-1] * state[i] mod p` for `i ≥ 1`. -/
theorem permute_mut_eq_diffusionSpec (state shifts : List Nat)
    (hlen : state.length = shifts.length + 1) (hN : state.length ≤ 24)
    (hx : ∀ x ∈ state, x < p31) (hsh : ∀ s ∈ shifts, s ≤ 22) :
    permute_mut state shifts = diffusionSpec state shifts := by
  match state, hlen with
  | s0 :: rest, _ =>
    have hs0 : s0 < p31 := hx s0 (List.mem_cons_self s0 rest)
    have hrest : ∀ x ∈ rest, x < 2 ^ 31 := fun x hxm => by
      have := hx x (List.mem_cons_of_mem s0 hxm); unfold p31 at this; omega
    rw [permute_mut_cons s0 rest shifts (by unfold p31 at hs0; omega) hrest
      (by simp at hN; omega) hsh]
    unfold diffusionSpec
    congr 1
    · exact head_eq_diffusion s0 rest.sum hs0
    · apply zipWith_congr_mem
      intro x _ sh _
      symm
      apply toNat_emod_eq
      push_cast
      ring

/-- C1 (witness): the amended theorem applied at the concrete state `[1, 2]`
with shift table `[3]`. -/
theorem permute_mut_eq_diffusionSpec_witness :
    permute_mut [1, 2] [3] = diffusionSpec [1, 2] [3] :=
  permute_mut_eq_diffusionSpec [1, 2] [3] (by decide) (by decide) (by decide) (by decide)

/-- C2: for width 16 and width 24 and every state of canonical Mersenne-31
field elements, the generic `internal_linear_layer` instantiated at
`R = Mersenne31` produces a state identical to the optimized `permute_mut`
with the matching shift table on the same input. -/
theorem generic_internal_layer_matches_permute_mut (s16 s24 : List Nat)
    (h16 : s16.length = 16) (h24 : s24.length = 24)
    (hx16 : ∀ x ∈ s16, x < p31) (hx24 : ∀ x ∈ s24, x < p31) :
    internal_linear_layer POSEIDON2_INTERNAL_MATRIX_DIAG_16_SHIFTS s16
        = permute_mut s16 POSEIDON2_INTERNAL_MATRIX_DIAG_16_SHIFTS ∧
    internal_linear_layer POSEIDON2_INTERNAL_MATRIX_DIAG_24_SHIFTS s24
        = permute_mut s24 POSEIDON2_INTERNAL_MATRIX_DIAG_24_SHIFTS := by
  constructor
  · match s16, h16 with
    | s0 :: s1 :: s2 :: rest, h16 =>
      have hlen : rest.length ≤ 21 := by simp at h16; omega
      have hs : ∀ x ∈ s0 :: s1 :: s2 :: rest, x < 2 ^ 31 := fun x hx => by
        have := hx16 x hx; unfold p31 at this; omega
      exact internal_linear_layer_eq s0 s1 s2 rest
        [2, 3, 4, 5, 6, 7, 8, 10, 12, 13, 14, 15, 16] hs hlen (by decide)
  · match s24, h24 with
    | s0 :: s1 :: s2 :: rest, h24 =>
      have hlen : rest.length ≤ 21 := by simp at h24; omega
      have hs : ∀ x ∈ s0 :: s1 :: s2 :: rest, x < 2 ^ 31 := fun x hx => by
        have := hx24 x hx; unfold p31 at this; omega
      exact internal_linear_layer_eq s0 s1 s2 rest
        [2, 3, 4, 5, 6, 7, 8, 9, 10, 11, 12, 13, 14, 15, 16, 17, 18, 19, 20, 21, 22]
        hs hlen (by decide)

/-- C2 (witness): the equivalence applied at a concrete width-16 state and a
concrete width-24 state. -/
theorem generic_internal_layer_matches_permute_mut_witness :
    internal_linear_layer POSEIDON2_INTERNAL_MATRIX_DIAG_16_SHIFTS
        [0, 1, 2, 3, 4, 5, 6, 7, 8, 9, 10, 11, 12, 13, 14, 15]
      = permute_mut [0, 1, 2, 3, 4, 5, 6, 7, 8, 9, 10, 11, 12, 13, 14, 15]
          POSEIDON2_INTERNAL_MATRIX_DIAG_16_SHIFTS ∧
    internal_linear_layer POSEIDON2_INTERNAL_MATRIX_DIAG_24_SHIFTS
        [0, 1, 2, 3, 4, 5, 6, 7, 8, 9, 10, 11, 12,
          13, 14, 15, 16, 17, 18, 19, 20, 21, 22, 23]
      = permute_mut
          [0, 1, 2, 3, 4, 5, 6, 7, 8, 9, 10, 11, 12,
            13, 14, 15, 16, 17, 18, 19, 20, 21, 22, 23]
          POSEIDON2_INTERNAL_MATRIX_DIAG_24_SHIFTS :=
  generic_internal_layer_matches_permute_mut _ _ (by decide) (by decide)
    (by decide) (by decide)

/-- C4: for every state of at most 24 elements below `2^31` and every shift
table with entries at most 22, the intermediate values of `permute_mut` —
`part_sum` (which equals the exact sum, so the `u64` accumulation never
wraps), `full_sum`, `s0`, and each `full_sum + (state[i] << shifts[i-1])` —
are strictly below `2^62`, satisfying the 62-bit precondition of `from_u62`;
and the bundled width-16 and width-24 shift tables have entries at most 22. -/
theorem permute_mut_no_overflow (s0 : Nat) (rest shifts : List Nat)
    (hN : rest.length + 1 ≤ 24) (hs0 : s0 < 2 ^ 31) (hrest : ∀ x ∈ rest, x < 2 ^ 31)
    (hsh : ∀ s ∈ shifts, s ≤ 22) :
    partSumU64 rest = rest.sum ∧
    partSumU64 rest < 2 ^ 62 ∧
    partSumU64 rest + s0 < 2 ^ 62 ∧
    partSumU64 rest + m31Neg s0 < 2 ^ 62 ∧
    (∀ x ∈ rest, ∀ sh ∈ shifts, partSumU64 rest + s0 + x * 2 ^ sh < 2 ^ 62) ∧
    (∀ s ∈ POSEIDON2_INTERNAL_MATRIX_DIAG_16_SHIFTS, s ≤ 22) ∧
    (∀ s ∈ POSEIDON2_INTERNAL_MATRIX_DIAG_24_SHIFTS, s ≤ 22) := by
  have hsum : rest.sum ≤ 23 * (2 ^ 31 - 1) := by
    calc rest.sum ≤ rest.length * (2 ^ 31 - 1) :=
      sum_le_mul_of_forall_le _ rest (fun x hx => by have := hrest x hx; omega)
    _ ≤ 23 * (2 ^ 31 - 1) := Nat.mul_le_mul_right _ (by omega)
  have hps : partSumU64 rest = rest.sum :=
    partSumU64_eq_sum rest (by unfold u64Mod; omega)
  have hneg := m31Neg_lt s0
  refine ⟨hps, by omega, by omega, by omega, ?_, by decide, by decide⟩
  intro x hx sh hshm
  have hxlt := hrest x hx
  have hshle := hsh sh hshm
  have h2 : (2 : Nat) ^ sh ≤ 2 ^ 22 := Nat.pow_le_pow_right (by norm_num) hshle
  have h3 : x * 2 ^ sh ≤ 2 ^ 31 * 2 ^ 22 := Nat.mul_le_mul (le_of_lt hxlt) h2
  norm_num at h3
  omega

/-- C4 (witness): the overflow bounds applied at the concrete state
`[1, 2, 3]` with shift table `[22]`. -/
theorem permute_mut_no_overflow_witness :
    partSumU64 [2, 3] = ([2, 3] : List Nat).sum ∧
    partSumU64 [2, 3] < 2 ^ 62 ∧
    partSumU64 [2, 3] + 1 < 2 ^ 62 ∧
    partSumU64 [2, 3] + m31Neg 1 < 2 ^ 62 ∧
    (∀ x ∈ ([2, 3] : List Nat), ∀ sh ∈ ([22] : List Nat),
      partSumU64 [2, 3] + 1 + x * 2 ^ sh < 2 ^ 62) ∧
    (∀ s ∈ POSEIDON2_INTERNAL_MATRIX_DIAG_16_SHIFTS, s ≤ 22) ∧
    (∀ s ∈ POSEIDON2_INTERNAL_MATRIX_DIAG_24_SHIFTS, s ≤ 22) :=
  permute_mut_no_overflow 1 [2, 3] [22] (by decide) (by decide) (by decide) (by decide)

/-- C5: applying only the diffusion transform (`permute_mut` with the matching
shift table, and likewise the generic `internal_linear_layer`) to the all-zero
state returns the all-zero state, for widths 16 and 24. -/
theorem diffusion_zero_fixpoint :
    permute_mut (List.replicate 16 0) POSEIDON2_INTERNAL_MATRIX_DIAG_16_SHIFTS
        = List.replicate 16 0 ∧
    permute_mut (List.replicate 24 0) POSEIDON2_INTERNAL_MATRIX_DIAG_24_SHIFTS
        = List.replicate 24 0 ∧
    internal_linear_layer POSEIDON2_INTERNAL_MATRIX_DIAG_16_SHIFTS (List.replicate 16 0)
        = List.replicate 16 0 ∧
    internal_linear_layer POSEIDON2_INTERNAL_MATRIX_DIAG_24_SHIFTS (List.replicate 24 0)
        = List.replicate 24 0 := by decide

/-- C6: the diffusion transform `permute_mut` is linear over the field: for
field scalars `a, b` and states `x, y` of the same width matching one of the
two bundled shift tables, `permute_mut` applied to the elementwise combination
`a*x + b*y mod p` equals the elementwise combination of `permute_mut x` and
`permute_mut y`, all arithmetic modulo `p = 2^31 - 1`. -/
theorem permute_mut_linear (a b : Nat) (x y shifts : List Nat)
    (hshifts : shifts = POSEIDON2_INTERNAL_MATRIX_DIAG_16_SHIFTS ∨
      shifts = POSEIDON2_INTERNAL_MATRIX_DIAG_24_SHIFTS)
    (hlx : x.length = shifts.length + 1) (hly : y.length = x.length)
    (ha : a < p31) (hb : b < p31)
    (hx : ∀ u ∈ x, u < p31) (hy : ∀ v ∈ y, v < p31) :
    permute_mut (List.zipWith (fun u v => (a * u + b * v) % p31) x y) shifts
      = List.zipWith (fun u v => (a * u + b * v) % p31)
          (permute_mut x shifts) (permute_mut y shifts) := by
  have hsh : ∀ s ∈ shifts, s ≤ 22 := by
    rcases hshifts with rfl | rfl <;> decide
  have hshl : shifts.length ≤ 23 := by
    rcases hshifts with rfl | rfl <;> decide
  clear ha hb
  cases x with
  | nil => simp at hlx
  | cons x0 xr =>
    cases y with
    | nil => simp [hlx] at hly
    | cons y0 yr =>
      simp only [List.length_cons] at hlx hly
      have hxr : ∀ u ∈ xr, u < 2 ^ 31 := fun u hu => by
        have := hx u (List.mem_cons_of_mem x0 hu); unfold p31 at this; omega
      have hyr : ∀ v ∈ yr, v < 2 ^ 31 := fun v hv => by
        have := hy v (List.mem_cons_of_mem y0 hv); unfold p31 at this; omega
      have hx0 : x0 < p31 := hx x0 (List.mem_cons_self x0 xr)
      have hy0 : y0 < p31 := hy y0 (List.mem_cons_self y0 yr)
      have hlen : xr.length = yr.length := by omega
      simp only [List.zipWith_cons_cons]
      rw [permute_mut_cons x0 xr shifts (by unfold p31 at hx0; omega) hxr
        (by omega) hsh]
      rw [permute_mut_cons y0 yr shifts (by unfold p31 at hy0; omega) hyr
        (by omega) hsh]
      rw [permute_mut_cons ((a * x0 + b * y0) % p31)
        (List.zipWith (fun u v => (a * u + b * v) % p31) xr yr) shifts
        (by have := Nat.mod_lt (a * x0 + b * y0) p31_pos; unfold p31 at this ⊢; omega)
        (by
          intro z hz
          have h2 := zipWith_mod_lt (fun u v => a * u + b * v) xr yr z hz
          unfold p31 at h2; omega)
        (by rw [List.length_zipWith]; omega) hsh]
      have hRc := combo_sum_cast a b xr yr hlen
      simp only [List.zipWith_cons_cons]
      congr 1
      · exact linear_head a b x0 y0 xr.sum yr.sum _ hx0 hy0 hRc
      · apply linear_tail a b _ _ _
        · simp only [Nat.cast_add, ZMod.natCast_mod, Nat.cast_mul]
          rw [hRc]
          ring
        · exact hlen

/-- C6 (witness): linearity applied with scalars 3 and 5 at two concrete
width-16 states and the width-16 shift table. -/
theorem permute_mut_linear_witness :
    permute_mut (List.zipWith (fun u v => (3 * u + 5 * v) % p31)
        [7, 1, 2, 3, 4, 5, 6, 7, 8, 9, 10, 11, 12, 13, 14, 15]
        [9, 8, 7, 6, 5, 4, 3, 2, 1, 0, 1, 2, 3, 4, 5, 6])
        POSEIDON2_INTERNAL_MATRIX_DIAG_16_SHIFTS
      = List.zipWith (fun u v => (3 * u + 5 * v) % p31)
          (permute_mut [7, 1, 2, 3, 4, 5, 6, 7, 8, 9, 10, 11, 12, 13, 14, 15]
            POSEIDON2_INTERNAL_MATRIX_DIAG_16_SHIFTS)
          (permute_mut [9, 8, 7, 6, 5, 4, 3, 2, 1, 0, 1, 2, 3, 4, 5, 6]
            POSEIDON2_INTERNAL_MATRIX_DIAG_16_SHIFTS) :=
  permute_mut_linear 3 5 _ _ _ (Or.inl rfl) (by decide) (by decide)
    (by decide) (by decide) (by decide) (by decide)

/-- C7: the internal round-constant tables bundled by the default constructors
have exactly 13 scalar entries for width 16 and exactly 21 for width 24, and
the internal-layer driver applies its per-round step (add the scalar constant
to element 0, apply the S-box to element 0, apply the diffusion transform —
the content of `internalRound`) exactly once per entry of the table: it does
nothing on an empty table and peels off exactly one round per entry. -/
theorem internal_layer_constants_shape :
    MERSENNE31_RC16_INTERNAL.length = 13 ∧ MERSENNE31_RC24_INTERNAL.length = 21 ∧
    (∀ shifts state, internal_permute_state shifts [] state = state) ∧
    (∀ shifts c cs state, internal_permute_state shifts (c :: cs) state
        = internal_permute_state shifts cs (internalRound shifts state c)) :=
  ⟨by decide, by decide, fun _ _ => rfl, fun _ _ _ _ => rfl⟩

/-- C8: the S-box exponent `MERSENNE31_S_BOX_DEGREE` equals 5; no smaller
`D ≥ 2` (that is, none of 2, 3, 4) is coprime with `p - 1` while
`gcd(p - 1, 5) = 1`; and the fifth-power map is a bijection on the field
`ZMod p` with `p = 2^31 - 1`. -/
theorem sbox_degree_smallest_bijective :
    MERSENNE31_S_BOX_DEGREE = 5 ∧
    Nat.gcd (p31 - 1) 2 ≠ 1 ∧ Nat.gcd (p31 - 1) 3 ≠ 1 ∧ Nat.gcd (p31 - 1) 4 ≠ 1 ∧
    Nat.gcd (p31 - 1) 5 = 1 ∧
    Function.Bijective (fun x : ZMod p31 => x ^ MERSENNE31_S_BOX_DEGREE) := by
  refine ⟨rfl, by norm_num [p31], by norm_num [p31], by norm_num [p31],
    by norm_num [p31], ?_⟩
  have key : ∀ w : ZMod p31, w ≠ 0 → (w ^ 5) ^ 1717986917 = w := by
    intro w hw
    have hf : w ^ (p31 - 1) = 1 := ZMod.pow_card_sub_one_eq_one hw
    calc (w ^ 5) ^ 1717986917 = w ^ (5 * 1717986917) := (pow_mul w 5 1717986917).symm
    _ = w ^ ((p31 - 1) * 4 + 1) := by norm_num [p31]
    _ = (w ^ (p31 - 1)) ^ 4 * w := by rw [pow_add, pow_mul, pow_one]
    _ = w := by rw [hf, one_pow, one_mul]
  have hinj : Function.Injective (fun x : ZMod p31 => x ^ MERSENNE31_S_BOX_DEGREE) := by
    intro u v h
    simp only [MERSENNE31_S_BOX_DEGREE] at h
    by_cases hu : u = 0
    · subst hu
      by_cases hv : v = 0
      · exact hv.symm
      · exfalso
        apply hv
        have h5 : v ^ 5 = 0 := by rw [← h]; simp
        exact pow_eq_zero_iff (by norm_num) |>.mp h5
    · by_cases hv : v = 0
      · exfalso
        apply hu
        have h5 : u ^ 5 = 0 := by rw [h, hv]; simp
        exact pow_eq_zero_iff (by norm_num) |>.mp h5
      · calc u = (u ^ 5) ^ 1717986917 := (key u hu).symm
        _ = (v ^ 5) ^ 1717986917 := by rw [h]
        _ = v := key v hv
  exact Finite.injective_iff_bijective.mp hinj

/-- C9: under the precondition `N = length(shifts) + 1`, `permute_mut` is
total — the debug assertion cannot fire (the checked version returns `some`)
and the result is a full state of `N` elements; when `N ≠ length(shifts) + 1`
the mismatch surfaces as the debug-time assertion (modelled as `none`), not as
an error value. -/
theorem permute_mut_total_and_assert (state shifts : List Nat) :
    (state.length = shifts.length + 1 →
      permute_mut_checked state shifts = some (permute_mut state shifts) ∧
      (permute_mut state shifts).length = state.length) ∧
    (state.length ≠ shifts.length + 1 → permute_mut_checked state shifts = none) := by
  constructor
  · intro h
    refine ⟨by simp [permute_mut_checked, h], ?_⟩
    match state, h with
    | s0 :: rest, h =>
      simp only [permute_mut, List.length_cons, List.length_zipWith]
      simp only [List.length_cons] at h
      omega
  · intro h
    simp [permute_mut_checked, h]

/-- C9 (witness): totality at the matching pair `([1, 2], [0])` and the
assertion at the mismatched pair `([1], [0])`. -/
theorem permute_mut_total_and_assert_witness :
    (permute_mut_checked [1, 2] [0] = some (permute_mut [1, 2] [0]) ∧
      (permute_mut [1, 2] [0]).length = ([1, 2] : List Nat).length) ∧
    permute_mut_checked [1] [0] = none :=
  ⟨(permute_mut_total_and_assert [1, 2] [0]).1 (by decide),
   (permute_mut_total_and_assert [1] [0]).2 (by decide)⟩

/-- C10: `permute_mut` preserves canonicity — for every input state whose
elements are canonical representatives in `[0, p)`, every element of the
output state lies again in `[0, p)` (the model's `from_u62` reduces exactly,
as the spec requires of it below `2^62`). -/
theorem permute_mut_preserves_canonicity (state shifts : List Nat)
    (hx : ∀ x ∈ state, x < p31) : ∀ y ∈ permute_mut state shifts, y < p31 := by
  intro y hy
  cases state with
  | nil => simp [permute_mut] at hy
  | cons s0 rest =>
    simp only [permute_mut, List.mem_cons] at hy
    rcases hy with rfl | hy
    · exact Nat.mod_lt _ p31_pos
    · simp only [from_u62] at hy
      exact zipWith_mod_lt
        (fun x sh => u64Add (u64Add (partSumU64 rest) s0) (u64Shl x sh)) rest shifts y hy

/-- C10 (witness): canonicity preservation applied at the concrete state
`[5, 6]` with shift table `[0]`, whose output state is `[1, 17]`: both output
elements are canonical. -/
theorem permute_mut_preserves_canonicity_witness : 1 < p31 ∧ 17 < p31 :=
  ⟨permute_mut_preserves_canonicity [5, 6] [0] (by decide) 1 (by decide),
   permute_mut_preserves_canonicity [5, 6] [0] (by decide) 17 (by decide)⟩
